import Mathlib

/-!
Verification of the Infrastructure Allocation Agent scoring pipeline

A shallow embedding (over `ℚ`) of `agent.py`: the ESG imputer, the
keyword-based news sentiment extractor, the three scorers, and the
aggregator / ranking / confidence logic, together with proofs of the
specification claims about them.
-/

/-- Round-half-to-even of a rational to an integer, modelling Python's
banker's rounding (`round`). -/
def rhe (q : ℚ) : ℤ :=
  let f := ⌊q⌋
  let r := q - f
  if r < 1 / 2 then f
  else if 1 / 2 < r then f + 1
  else if f % 2 = 0 then f else f + 1

/-- Python's `round(q, d)`, modelled as `roundTo d q`. -/
def roundTo (d : ℕ) (q : ℚ) : ℚ :=
  (rhe (q * (10 : ℚ) ^ d) : ℚ) / (10 : ℚ) ^ d

/-- Company record as produced by `load_companies`: the five numeric fields
are nullable, `esg_imputed` is set by the imputer. -/
structure Company where
  name : String
  revenue_growth : Option ℚ
  ebitda_margin : Option ℚ
  debt_to_equity : Option ℚ
  volatility : Option ℚ
  esg_score : Option ℚ
  operational_risk : String
  is_corrupted : Bool
  esg_imputed : Bool
deriving Repr, DecidableEq

/-- The valid ESG sample: `esg_score` non-null and the company not
corrupted (line 46-47 of `agent.py`). -/
def validESG (cs : List Company) : List ℚ :=
  cs.filterMap fun c =>
    match c.esg_score with
    | some v => if c.is_corrupted then none else some v
    | none => none

/-- The median computation of `impute_missing` (lines 48-50): sort the valid
sample; odd count takes the middle element, even count averages the two
middle ones.  Indexing an empty sequence is a Python `IndexError`, modelled
as `none`. -/
def median_esg (cs : List Company) : Option ℚ :=
  let s := (validESG cs).insertionSort (· ≤ ·)
  let n := s.length
  if n % 2 = 1 then s[n / 2]?
  else
    match s[n / 2 - 1]?, s[n / 2]? with
    | some a, some b => some ((a + b) / 2)
    | _, _ => none

/-- The imputer `impute_missing` (lines 45-58): every company with a null `esg_score`
receives `round(median * penalty, 1)` with `penalty = 0.9` when corrupted,
and `esg_imputed := true`; all others get `esg_imputed := false`.  A failed
median computation propagates as `none`. -/
def impute_missing (cs : List Company) : Option (List Company) :=
  (median_esg cs).map fun m =>
    cs.map fun c =>
      match c.esg_score with
      | none =>
          { c with
            esg_score := some (roundTo 1 (m * (if c.is_corrupted then 9 / 10 else 1))),
            esg_imputed := true }
      | some _ => { c with esg_imputed := false }

/-- Keyword taxonomy loaded from `keywords.json`: three lists of
lower-case keywords.  Strings are modelled as lists of characters. -/
structure Keywords where
  positive : List (List Char)
  negative : List (List Char)
  uncertainty : List (List Char)

/-- The per-list keyword count of `extract_news_signals` (lines 75-77):
`sum(1 for kw in kws if kw in para_lower)` — one for each keyword of the
list that occurs as a substring of the paragraph. -/
def countIn (kws : List (List Char)) (para : List Char) : ℕ :=
  (kws.map fun kw => if kw <:+: para then 1 else 0).sum

/-- Modelled from the spec: the total number of substring occurrences of
`kw` in `para` (one per starting position), the counting semantics the
specification ascribes to the extractor. -/
def countOcc (kw para : List Char) : ℕ :=
  ((List.range (para.length + 1)).filter fun i => decide (kw <+: para.drop i)).length

/-- The raw sentiment `raw = (pos - neg) / max(pos + neg, 1)` (line 79). -/
def rawSentiment (pos neg : ℕ) : ℚ :=
  ((pos : ℚ) - (neg : ℚ)) / max ((pos : ℚ) + (neg : ℚ)) 1

/-- Sentiment from the three counts (lines 79-81):
`round(raw * max(1.0 - 0.15*unc, 0.3), 3)`. -/
def sentimentOf (pos neg unc : ℕ) : ℚ :=
  roundTo 3 (rawSentiment pos neg * max (1 - 15 / 100 * (unc : ℚ)) (3 / 10))

/-- Sentiment of one paragraph (lines 71-83): counts are taken over the
lower-cased paragraph. -/
def paraSentiment (kws : Keywords) (para : List Char) : ℚ :=
  let pl := para.map Char.toLower
  sentimentOf (countIn kws.positive pl) (countIn kws.negative pl) (countIn kws.uncertainty pl)

/-- Constraint set produced by `translate_constraints`. -/
structure Constraints where
  max_volatility : ℚ
  max_debt_to_equity : ℚ
  min_esg_score : ℚ
  stability_preference : Bool

/-- Python's `min` of a non-empty list (`min(xs)`); the empty case never
arises in the scorers, which iterate over the same non-empty list. -/
def listMin : List ℚ → ℚ
  | [] => 0
  | x :: xs => xs.foldl min x

/-- Python's `max` of a non-empty list (`max(xs)`). -/
def listMax : List ℚ → ℚ
  | [] => 0
  | x :: xs => xs.foldl max x

/-- The function `normalize` (lines 125-130): min-max scaling clamped to `[0,1]`,
`0.5` in the degenerate equal-bounds case, optionally inverted (named
`normalize` in the source; renamed here to avoid a library clash). -/
def normalizeVal (value min_val max_val : ℚ) (invert : Bool) : ℚ :=
  if max_val = min_val then 1 / 2
  else
    let s := (value - min_val) / (max_val - min_val)
    let s := max 0 (min 1 s)
    if invert then 1 - s else s

/-- The financial score of one company (lines 138-141):
`round(0.4 * growth_norm + 0.6 * margin_norm, 4)`.  Null fields never reach
the scorers in a well-formed run; `getD 0` stands for Python's undefined
null arithmetic and is irrelevant under the non-null hypotheses used. -/
def finValue (cs : List Company) (c : Company) : ℚ :=
  let growths := cs.map fun x => x.revenue_growth.getD 0
  let margins := cs.map fun x => x.ebitda_margin.getD 0
  roundTo 4
    (4 / 10 * normalizeVal (c.revenue_growth.getD 0) (listMin growths) (listMax growths) false +
      6 / 10 * normalizeVal (c.ebitda_margin.getD 0) (listMin margins) (listMax margins) false)

/-- The financial scorer `scorer_financial` (lines 133-142). -/
def scorer_financial (cs : List Company) : List (String × ℚ) :=
  cs.map fun c => (c.name, finValue cs c)

/-- The lookup `risk_map.get(op, 0.5)` (lines 149, 154). -/
def risk_map (s : String) : ℚ :=
  if s = "Low" then 1 else if s = "Medium" then 6 / 10 else if s = "High" then 2 / 10 else 1 / 2

/-- The pre-penalty risk score `0.35*vol + 0.35*dte + 0.30*op`
(lines 152-154, 162). -/
def risk_base (c : Company) (vols dtes : List ℚ) : ℚ :=
  let vol := normalizeVal (c.volatility.getD 0) (listMin vols) (listMax vols) true
  let dte := normalizeVal (c.debt_to_equity.getD 0) (listMin dtes) (listMax dtes) true
  35 / 100 * vol + 35 / 100 * dte + 30 / 100 * risk_map c.operational_risk

/-- The additive constraint penalty (lines 156-160). -/
def risk_penalty (c : Company) (con : Constraints) : ℚ :=
  (if con.max_volatility < c.volatility.getD 0 then 3 / 10 else 0) +
    (if con.max_debt_to_equity < c.debt_to_equity.getD 0 then 3 / 10 else 0)

/-- The risk score of one company (line 163):
`round(max(base - penalty, 0.0), 4)`. -/
def riskValue (cs : List Company) (con : Constraints) (c : Company) : ℚ :=
  roundTo 4 (max (risk_base c (cs.map fun x => x.volatility.getD 0)
    (cs.map fun x => x.debt_to_equity.getD 0) - risk_penalty c con) 0)

/-- The risk scorer `scorer_risk` (lines 145-164). -/
def scorer_risk (cs : List Company) (con : Constraints) : List (String × ℚ) :=
  cs.map fun c => (c.name, riskValue cs con c)

/-- Python `dict.get(k, d)` over an association list. -/
def lookupD (l : List (String × ℚ)) (k : String) (d : ℚ) : ℚ :=
  match l.find? fun p => p.1 == k with
  | some p => p.2
  | none => d

/-- The news score of one company (lines 169-174): map sentiment from
`[-1,1]` to `[0,1]`, `0.85` haircut for corrupted companies, round to 4
decimals. -/
def newsValue (signals : List (String × ℚ)) (c : Company) : ℚ :=
  let sentiment := lookupD signals c.name 0
  let score := (sentiment + 1) / 2
  roundTo 4 (if c.is_corrupted then score * (85 / 100) else score)

/-- The news scorer `scorer_news` (lines 167-175). -/
def scorer_news (cs : List Company) (signals : List (String × ℚ)) : List (String × ℚ) :=
  cs.map fun c => (c.name, newsValue signals c)

/-- The aggregation loop (lines 192-194):
`final[name] = round(0.30*fin[name] + 0.45*risk[name] + 0.25*news[name], 4)`
iterating over `fin` in insertion order. -/
def finalScores (fin risk news : List (String × ℚ)) : List (String × ℚ) :=
  fin.map fun p =>
    (p.1, roundTo 4 (3 / 10 * p.2 + 45 / 100 * lookupD risk p.1 0 + 25 / 100 * lookupD news p.1 0))

/-- Descending order on scores, the comparison of
`sorted(final.items(), key=lambda x: x[1], reverse=True)` (line 196). -/
def rankDesc (a b : String × ℚ) : Prop := b.2 ≤ a.2

instance : DecidableRel rankDesc := fun a b => inferInstanceAs (Decidable (b.2 ≤ a.2))

instance : IsTotal (String × ℚ) rankDesc := ⟨fun a b => le_total b.2 a.2⟩

instance : IsTrans (String × ℚ) rankDesc :=
  ⟨fun _ _ _ h1 h2 => le_trans h2 h1⟩

/-- The ranking (line 196): a stable sort of the final scores by score,
descending.  Python's `sorted` is a stable sort; so is `insertionSort`,
and a stable sort by a total preorder is unique, so this is faithful. -/
def rankingOf (final : List (String × ℚ)) : List (String × ℚ) :=
  final.insertionSort rankDesc

/-- The value `top_gap` (line 200): score gap between rank 1 and rank 2, `0` when
there are fewer than two companies. -/
def topGap (ranking : List (String × ℚ)) : ℚ :=
  match ranking with
  | a :: b :: _ => a.2 - b.2
  | _ => 0

/-- The three uncertainty markers appended in lines 210-216; the report
strings carry no further claim-relevant content. -/
inductive UFactor where
  | gapClose
  | corruptedData
  | esgImputed
deriving Repr, DecidableEq

/-- Confidence (lines 201-208): start at `0.80`, subtract `0.15`, `0.07`,
`0.05` for the triggered conditions, then `round(max(0.3, c), 2)`. -/
def confidenceOf (gap : ℚ) (corr imp : Bool) : ℚ :=
  let c0 : ℚ := 8 / 10
  let c1 := if gap < 5 / 100 then c0 - 15 / 100 else c0
  let c2 := if corr then c1 - 7 / 100 else c1
  let c3 := if imp then c2 - 5 / 100 else c2
  roundTo 2 (max (3 / 10) c3)

/-- The list `uncertainty_factors` (lines 210-216): one entry per triggered
condition, in the fixed order gap, corruption, imputation. -/
def uncertaintyFactors (gap : ℚ) (corr imp : Bool) : List UFactor :=
  (if gap < 5 / 100 then [UFactor.gapClose] else []) ++
    (if corr then [UFactor.corruptedData] else []) ++
      (if imp then [UFactor.esgImputed] else [])

/-- Financial score map of the three-company end-to-end scenario. -/
def fin3 : List (String × ℚ) := [("C1", 9 / 10), ("C2", 1 / 2), ("C3", 1 / 10)]

/-- Risk score map of the three-company end-to-end scenario. -/
def risk3 : List (String × ℚ) := [("C1", 1 / 2), ("C2", 1 / 2), ("C3", 9 / 10)]

/-- News score map of the three-company end-to-end scenario. -/
def news3 : List (String × ℚ) := [("C1", 1 / 2), ("C2", 1 / 2), ("C3", 1 / 2)]

/-- A keyword taxonomy with one positive and one negative keyword, used to
compare presence counting with occurrence counting. -/
def kwsGG : Keywords :=
  { positive := ["growth".toList], negative := ["risk".toList], uncertainty := [] }

/-- A paragraph in which the positive keyword occurs twice. -/
def paraGG : List Char := "growth growth risk".toList

/-- A company with a null `revenue_growth` but a present `esg_score`. -/
def acmeNullGrowth : Company :=
  { name := "Acme", revenue_growth := none, ebitda_margin := some 1,
    debt_to_equity := some 1, volatility := some 1, esg_score := some 50,
    operational_risk := "Low", is_corrupted := false, esg_imputed := false }

/-- Concrete company for witnesses: all fields present. -/
def mkFull (nm : String) (g m d v e : ℚ) (corr : Bool) : Company :=
  { name := nm, revenue_growth := some g, ebitda_margin := some m,
    debt_to_equity := some d, volatility := some v, esg_score := some e,
    operational_risk := "Low", is_corrupted := corr, esg_imputed := false }

/-- Concrete company for witnesses: missing `esg_score`. -/
def mkNoEsg (nm : String) (g m d v : ℚ) (corr : Bool) : Company :=
  { name := nm, revenue_growth := some g, ebitda_margin := some m,
    debt_to_equity := some d, volatility := some v, esg_score := none,
    operational_risk := "High", is_corrupted := corr, esg_imputed := false }

/-- Witness list for the imputer: valid sample `[10, 20, 30]`, one missing
`esg_score` on a corrupted company. -/
def csImp : List Company :=
  [mkFull "A" 1 2 3 4 10 false, mkFull "B" 1 2 3 4 20 false,
   mkFull "C" 1 2 3 4 30 false, mkNoEsg "D" 1 2 3 4 true]

/-- Witness list for the scorers and the aggregator: two companies with all
fields present and distinct names. -/
def csSc : List Company := [mkFull "A" 1 2 3 4 10 false, mkFull "B" 5 6 7 8 20 true]

/-- Witness constraint set. -/
def conSc : Constraints :=
  { max_volatility := 25, max_debt_to_equity := 2, min_esg_score := 50,
    stability_preference := false }

/-- Witness news-signal map, values inside `[-1, 1]`. -/
def sigSc : List (String × ℚ) := [("A", 1 / 2), ("B", -1 / 4)]

/-- The imputed output for `csImp`: median 20, the corrupted company D
receives `round(20 * 0.9, 1) = 18`. -/
def csImpOut : List Company :=
  [mkFull "A" 1 2 3 4 10 false, mkFull "B" 1 2 3 4 20 false,
   mkFull "C" 1 2 3 4 30 false,
   { mkNoEsg "D" 1 2 3 4 true with esg_score := some 18, esg_imputed := true }]

-- ### Helper lemmas

theorem rhe_sub_le (q : ℚ) : |((rhe q : ℚ)) - q| ≤ 1 / 2 := by
  unfold rhe
  set f := ⌊q⌋ with hf
  have h0 : (0 : ℚ) ≤ q - f := by
    simp [hf, Int.floor_le]
  have h1 : q - f < 1 := by
    have := Int.lt_floor_add_one q
    push_cast [hf]
    linarith [Int.lt_floor_add_one q]
  by_cases hlt : q - f < 1 / 2
  · simp only [hlt, if_true]
    rw [abs_le]
    constructor <;> linarith
  · by_cases hgt : 1 / 2 < q - f
    · simp only [hlt, hgt, if_false, if_true]
      rw [abs_le]
      push_cast
      constructor <;> linarith
    · have heq : q - f = 1 / 2 := le_antisymm (not_lt.mp hgt) (not_lt.mp hlt)
      simp only [hlt, hgt, if_false]
      by_cases hpar : f % 2 = 0 <;> simp only [hpar, if_true, if_false] <;>
        rw [abs_le] <;> push_cast <;> constructor <;> linarith

theorem le_rhe {z : ℤ} {q : ℚ} (h : (z : ℚ) ≤ q) : z ≤ rhe q := by
  have hb := rhe_sub_le q
  rw [abs_le] at hb
  have : (z : ℚ) - 1 / 2 ≤ (rhe q : ℚ) := by linarith
  have hlt : (z : ℚ) - 1 < (rhe q : ℚ) := by linarith
  have : (z : ℤ) - 1 < rhe q := by exact_mod_cast hlt
  omega

theorem rhe_le {z : ℤ} {q : ℚ} (h : q ≤ (z : ℚ)) : rhe q ≤ z := by
  have hb := rhe_sub_le q
  rw [abs_le] at hb
  have hlt : (rhe q : ℚ) < (z : ℚ) + 1 := by linarith
  have : rhe q < z + 1 := by exact_mod_cast hlt
  omega

theorem roundTo_mem_Icc {d : ℕ} {q a b : ℚ} (hz : ∃ za : ℤ, (za : ℚ) = a * 10 ^ d)
    (hz2 : ∃ zb : ℤ, (zb : ℚ) = b * 10 ^ d)
    (ha : a ≤ q) (hb : q ≤ b) : a ≤ roundTo d q ∧ roundTo d q ≤ b := by
  obtain ⟨za, hza⟩ := hz
  obtain ⟨zb, hzb⟩ := hz2
  have hpow : (0 : ℚ) < (10 : ℚ) ^ d := by positivity
  have h1 : (za : ℚ) ≤ q * 10 ^ d := by
    rw [hza]; exact mul_le_mul_of_nonneg_right ha (le_of_lt hpow)
  have h2 : q * 10 ^ d ≤ (zb : ℚ) := by
    rw [hzb]; exact mul_le_mul_of_nonneg_right hb (le_of_lt hpow)
  have hl := le_rhe h1
  have hr := rhe_le h2
  constructor
  · rw [roundTo, le_div_iff₀ hpow, ← hza]
    exact_mod_cast hl
  · rw [roundTo, div_le_iff₀ hpow, ← hzb]
    exact_mod_cast hr


theorem rawSentiment_mem (pos neg : ℕ) :
    -1 ≤ rawSentiment pos neg ∧ rawSentiment pos neg ≤ 1 := by
  unfold rawSentiment
  have hD1 : (1 : ℚ) ≤ max ((pos : ℚ) + (neg : ℚ)) 1 := le_max_right _ _
  have hD0 : (0 : ℚ) < max ((pos : ℚ) + (neg : ℚ)) 1 := lt_of_lt_of_le one_pos hD1
  have hsum : (pos : ℚ) + neg ≤ max ((pos : ℚ) + (neg : ℚ)) 1 := le_max_left _ _
  have hp : (0 : ℚ) ≤ pos := Nat.cast_nonneg pos
  have hn : (0 : ℚ) ≤ neg := Nat.cast_nonneg neg
  constructor
  · rw [le_div_iff₀ hD0]
    linarith
  · rw [div_le_one hD0]
    linarith

/-- C8: for all non-negative counts `pos`, `neg`, `unc`, the paragraph
sentiment `round(((pos - neg) / max(pos + neg, 1)) * max(1 - 0.15*unc, 0.3), 3)`
lies in `[-1, 1]` by construction, with no explicit re-clamping. -/
theorem sentiment_in_range (pos neg unc : ℕ) :
    -1 ≤ sentimentOf pos neg unc ∧ sentimentOf pos neg unc ≤ 1 := by
  have hraw := rawSentiment_mem pos neg
  have hd0 : (0 : ℚ) ≤ max (1 - 15 / 100 * (unc : ℚ)) (3 / 10) :=
    le_trans (by norm_num) (le_max_right _ _)
  have hd1 : max (1 - 15 / 100 * (unc : ℚ)) (3 / 10) ≤ 1 := by
    apply max_le
    · have : (0 : ℚ) ≤ 15 / 100 * unc := by positivity
      linarith
    · norm_num
  have h1 : |rawSentiment pos neg| ≤ 1 := abs_le.mpr hraw
  have h2 : |max (1 - 15 / 100 * (unc : ℚ)) (3 / 10)| ≤ 1 := abs_le.mpr ⟨by linarith, hd1⟩
  have habs : |rawSentiment pos neg * max (1 - 15 / 100 * (unc : ℚ)) (3 / 10)| ≤ 1 := by
    rw [abs_mul]
    calc |rawSentiment pos neg| * |max (1 - 15 / 100 * (unc : ℚ)) (3 / 10)|
        ≤ 1 * 1 := mul_le_mul h1 h2 (abs_nonneg _) (by norm_num)
      _ = 1 := by norm_num
  have hm := abs_le.mp habs
  exact roundTo_mem_Icc ⟨-1000, by norm_num⟩ ⟨1000, by norm_num⟩ hm.1 hm.2

/-- C5: confidence starts at 0.80, is decremented by exactly 0.15 / 0.07 /
0.05 for the gap, corruption and imputation conditions, is finished by
`round(max(0.3, c), 2)` and hence always lies in `[0.3, 0.80]`; the
uncertainty factors hold exactly one entry per triggered decrement, in the
fixed order gap, corruption, imputation. -/
theorem confidence_and_factors_spec (gap : ℚ) (corr imp : Bool) :
    confidenceOf gap corr imp =
      roundTo 2 (max (3 / 10)
        (8 / 10 - (if gap < 5 / 100 then 15 / 100 else 0) -
          (if corr then 7 / 100 else 0) - (if imp then 5 / 100 else 0))) ∧
    3 / 10 ≤ confidenceOf gap corr imp ∧ confidenceOf gap corr imp ≤ 8 / 10 ∧
    (uncertaintyFactors gap corr imp).Sublist
      [UFactor.gapClose, UFactor.corruptedData, UFactor.esgImputed] ∧
    (uncertaintyFactors gap corr imp).count UFactor.gapClose =
      (if gap < 5 / 100 then 1 else 0) ∧
    (uncertaintyFactors gap corr imp).count UFactor.corruptedData =
      (if corr then 1 else 0) ∧
    (uncertaintyFactors gap corr imp).count UFactor.esgImputed =
      (if imp then 1 else 0) := by
  by_cases hg : gap < 5 / 100 <;> cases corr <;> cases imp <;>
    simp only [confidenceOf, uncertaintyFactors, hg, if_true, if_false] <;>
      refine ⟨by norm_num, by norm_num [roundTo, rhe], by norm_num [roundTo, rhe],
        by decide, by decide, by decide, by decide⟩

theorem finalScores3_eq :
    finalScores fin3 risk3 news3 =
      [("C1", 62 / 100), ("C2", 50 / 100), ("C3", 56 / 100)] := by
  have h : finalScores fin3 risk3 news3 =
      [("C1", roundTo 4 (3 / 10 * (9 / 10) + 45 / 100 * (1 / 2) + 25 / 100 * (1 / 2))),
       ("C2", roundTo 4 (3 / 10 * (1 / 2) + 45 / 100 * (1 / 2) + 25 / 100 * (1 / 2))),
       ("C3", roundTo 4 (3 / 10 * (1 / 10) + 45 / 100 * (9 / 10) + 25 / 100 * (1 / 2)))] := rfl
  rw [h]
  norm_num [roundTo, rhe]

theorem ranking3_eq :
    rankingOf [("C1", 62 / 100), ("C2", 50 / 100), ("C3", 56 / 100)] =
      [("C1", 62 / 100), ("C3", 56 / 100), ("C2", 50 / 100)] := by
  norm_num [rankingOf, List.insertionSort, List.orderedInsert, rankDesc]

/-- C3 counterexample: on the scenario score maps the aggregator produces
`0.62` for C1 (not `0.47`) and the ranking `[C1, C3, C2]`
(not `[C3, C1, C2]`). -/
theorem scenario_claimed_values_false :
    lookupD (finalScores fin3 risk3 news3) "C1" 0 = 62 / 100 ∧
    (62 / 100 : ℚ) ≠ 47 / 100 ∧
    (rankingOf (finalScores fin3 risk3 news3)).map Prod.fst ≠ ["C3", "C1", "C2"] := by
  rw [finalScores3_eq, ranking3_eq]
  refine ⟨by norm_num [lookupD], by norm_num, by decide⟩

/-- C3 (amended): on the scenario component scores
financial = [0.9, 0.5, 0.1], risk = [0.5, 0.5, 0.9], news = [0.5, 0.5, 0.5]
with weights (0.30, 0.45, 0.25), the final scores are [0.62, 0.50, 0.56],
the ranking is [C1, C3, C2], the top gap is 0.06 ≥ 0.05, and with no
corruption and no imputation the confidence is 0.80 with no uncertainty
factors. -/
theorem scenario_three_companies :
    finalScores fin3 risk3 news3 = [("C1", 62 / 100), ("C2", 50 / 100), ("C3", 56 / 100)] ∧
    (rankingOf (finalScores fin3 risk3 news3)).map Prod.fst = ["C1", "C3", "C2"] ∧
    topGap (rankingOf (finalScores fin3 risk3 news3)) = 6 / 100 ∧
    ¬ topGap (rankingOf (finalScores fin3 risk3 news3)) < 5 / 100 ∧
    confidenceOf (topGap (rankingOf (finalScores fin3 risk3 news3))) false false = 8 / 10 ∧
    uncertaintyFactors (topGap (rankingOf (finalScores fin3 risk3 news3))) false false = [] := by
  rw [finalScores3_eq, ranking3_eq]
  refine ⟨rfl, rfl, by norm_num [topGap], by norm_num [topGap],
    by norm_num [topGap, confidenceOf, roundTo, rhe],
    by norm_num [topGap, uncertaintyFactors]⟩

theorem countIn_eq_filter_length (ls : List (List Char)) (p : List Char) :
    countIn ls p = (ls.filter fun kw => decide (kw <:+: p)).length := by
  induction ls with
  | nil => rfl
  | cons k t ih =>
    simp only [countIn, List.map_cons, List.sum_cons, List.filter_cons] at *
    by_cases h : k <:+: p
    · simp [h, ih, Nat.add_comm]
    · simp [h, ih]

/-- C1 counterexample: with positive keyword list `["growth"]` and negative
list `["risk"]`, on the paragraph `"growth growth risk"` the extractor
counts `pos = 1` although `"growth"` occurs `2` times as a substring, and
its sentiment is `0`, whereas the occurrence counts `(2, 1, 0)` of the
claim would give `round((2-1)/3, 3) = 0.333`. -/
theorem keyword_counts_presence_cex :
    countIn kwsGG.positive (paraGG.map Char.toLower) = 1 ∧
    countOcc "growth".toList (paraGG.map Char.toLower) = 2 ∧
    paraSentiment kwsGG paraGG = 0 ∧
    roundTo 3 (rawSentiment 2 1 * max (1 - 15 / 100 * ((0 : ℕ) : ℚ)) (3 / 10)) =
      333 / 1000 := by
  refine ⟨by decide, by decide, ?_, by norm_num [rawSentiment, roundTo, rhe]⟩
  have h : paraSentiment kwsGG paraGG = sentimentOf 1 1 0 := rfl
  rw [h]
  norm_num [sentimentOf, rawSentiment, roundTo, rhe]

/-- C1 (amended): for every paragraph, `pos`, `neg` and `unc` are presence
counts — the number of keywords of each list occurring at least once as a
substring of the lower-cased paragraph, a keyword occurring `k ≥ 1` times
contributing `1`, not `k` — and the sentiment is
`round(((pos - neg) / max(pos + neg, 1)) * max(1 - 0.15*unc, 0.3), 3)`. -/
theorem paragraph_counts_spec (kws : Keywords) (para : List Char) :
    (∀ ls : List (List Char),
      countIn ls (para.map Char.toLower) =
        (ls.filter fun kw => decide (kw <:+: para.map Char.toLower)).length) ∧
    paraSentiment kws para =
      roundTo 3
        (rawSentiment (countIn kws.positive (para.map Char.toLower))
            (countIn kws.negative (para.map Char.toLower)) *
          max (1 - 15 / 100 * ((countIn kws.uncertainty (para.map Char.toLower)) : ℚ))
            (3 / 10)) :=
  ⟨fun ls => countIn_eq_filter_length ls (para.map Char.toLower), rfl⟩

theorem median_esg_none_iff (cs : List Company) :
    median_esg cs = none ↔ validESG cs = [] := by
  unfold median_esg
  have hlen : ((validESG cs).insertionSort (· ≤ ·)).length = (validESG cs).length :=
    List.length_insertionSort _ _
  constructor
  · intro h
    by_contra hne
    have hpos : 0 < ((validESG cs).insertionSort (· ≤ ·)).length := by
      rw [hlen]
      exact List.length_pos.mpr hne
    rcases Nat.mod_two_eq_zero_or_one ((validESG cs).insertionSort (· ≤ ·)).length with
      hpar | hpar
    · have h2 : ((validESG cs).insertionSort (· ≤ ·)).length / 2 <
          ((validESG cs).insertionSort (· ≤ ·)).length := Nat.div_lt_self hpos one_lt_two
      have h1 : ((validESG cs).insertionSort (· ≤ ·)).length / 2 - 1 <
          ((validESG cs).insertionSort (· ≤ ·)).length :=
        lt_of_le_of_lt (Nat.sub_le _ _) h2
      rw [if_neg (by omega), List.getElem?_eq_getElem h1, List.getElem?_eq_getElem h2] at h
      exact Option.noConfusion h
    · have h2 : ((validESG cs).insertionSort (· ≤ ·)).length / 2 <
          ((validESG cs).insertionSort (· ≤ ·)).length := Nat.div_lt_self hpos one_lt_two
      rw [if_pos hpar, List.getElem?_eq_getElem h2] at h
      exact Option.noConfusion h
  · intro h
    have hnil : (validESG cs).insertionSort (· ≤ ·) = [] := by
      apply List.eq_nil_of_length_eq_zero
      rw [hlen, h, List.length_nil]
    rw [hnil]
    rfl

/-- C9: `impute_missing` fails (the median computation indexes an empty
sequence, modelled as `none`, propagating to the caller) exactly when the
valid-ESG sample is empty; with a non-empty valid sample it succeeds. -/
theorem impute_missing_none_iff (cs : List Company) :
    impute_missing cs = none ↔ validESG cs = [] := by
  rw [impute_missing, Option.map_eq_none']
  exact median_esg_none_iff cs

/-- C2 counterexample: a company with a null `revenue_growth` and a present
`esg_score` passes through `impute_missing` with `revenue_growth` still
null, so not every numeric field is non-null after the imputer runs. -/
theorem impute_missing_fields_cex :
    impute_missing [acmeNullGrowth] =
      some [{ acmeNullGrowth with esg_imputed := false }] ∧
    ({ acmeNullGrowth with esg_imputed := false } : Company).revenue_growth = none :=
  ⟨rfl, rfl⟩

/-- C2 (amended): when `impute_missing` succeeds, every company ends with
`esg_score` non-null and `esg_imputed` set (true exactly when `esg_score`
was null); the four other numeric fields are left unchanged, hence non-null
only if they already were. -/
theorem impute_missing_invariant (cs l : List Company)
    (h : impute_missing cs = some l) :
    l.length = cs.length ∧
    ∀ (i : ℕ) (c : Company), cs[i]? = some c →
      ∃ e : Company, l[i]? = some e ∧ e.esg_score.isSome = true ∧
        e.esg_imputed = c.esg_score.isNone ∧
        e.name = c.name ∧ e.revenue_growth = c.revenue_growth ∧
        e.ebitda_margin = c.ebitda_margin ∧ e.debt_to_equity = c.debt_to_equity ∧
        e.volatility = c.volatility := by
  rw [impute_missing, Option.map_eq_some'] at h
  obtain ⟨m, _, hl⟩ := h
  subst hl
  refine ⟨List.length_map _ _, ?_⟩
  intro i c hc
  rw [List.getElem?_map, hc]
  cases hesg : c.esg_score with
  | none =>
      refine ⟨_, rfl, ?_⟩
      simp [hesg]
  | some v =>
      refine ⟨_, rfl, ?_⟩
      simp [hesg]

theorem median_csImp_eq : median_esg csImp = some 20 := by
  have hv : validESG csImp = [10, 20, 30] := rfl
  unfold median_esg
  rw [hv]
  have hs : ([10, 20, 30] : List ℚ).insertionSort (· ≤ ·) = [10, 20, 30] := by
    norm_num [List.insertionSort, List.orderedInsert]
  rw [hs]
  simp

theorem impute_csImp_eq : impute_missing csImp = some csImpOut := by
  rw [impute_missing, median_csImp_eq, Option.map_some']
  simp only [csImp, csImpOut, List.map_cons, List.map_nil, mkFull, mkNoEsg]
  norm_num [roundTo, rhe]

/-- Witness for the amended C2 at a concrete input. -/
theorem impute_missing_invariant_witness :
    impute_missing csImp = some csImpOut ∧
    (csImpOut.length = csImp.length ∧
      ∀ (i : ℕ) (c : Company), csImp[i]? = some c →
        ∃ e : Company, csImpOut[i]? = some e ∧ e.esg_score.isSome = true ∧
          e.esg_imputed = c.esg_score.isNone ∧
          e.name = c.name ∧ e.revenue_growth = c.revenue_growth ∧
          e.ebitda_margin = c.ebitda_margin ∧ e.debt_to_equity = c.debt_to_equity ∧
          e.volatility = c.volatility) :=
  ⟨impute_csImp_eq, impute_missing_invariant csImp csImpOut impute_csImp_eq⟩

/-- C6: with a non-empty valid-ESG sample, the median is the middle element
of the sorted valid sample (average of the two middle elements for an even
count), and `impute_missing` gives every company whose `esg_score` was null
the value `round(median * penalty, 1)` with penalty 0.9 when corrupted,
setting `esg_imputed` exactly for those companies. -/
theorem impute_missing_median_spec (cs : List Company) (h : validESG cs ≠ []) :
    ∃ (m : ℚ) (s : List ℚ) (l : List Company),
      median_esg cs = some m ∧
      List.Sorted (· ≤ ·) s ∧ s.Perm (validESG cs) ∧
      (s.length % 2 = 1 → s[s.length / 2]? = some m) ∧
      (s.length % 2 = 0 → ∃ a b : ℚ, s[s.length / 2 - 1]? = some a ∧
        s[s.length / 2]? = some b ∧ m = (a + b) / 2) ∧
      impute_missing cs = some l ∧ l.length = cs.length ∧
      ∀ (i : ℕ) (c : Company), cs[i]? = some c →
        (c.esg_score = none →
          l[i]? = some { c with
            esg_score := some (roundTo 1 (m * (if c.is_corrupted then 9 / 10 else 1))),
            esg_imputed := true }) ∧
        (∀ v : ℚ, c.esg_score = some v →
          l[i]? = some { c with esg_imputed := false }) := by
  have hmex : ∃ m : ℚ, median_esg cs = some m := by
    cases hm : median_esg cs with
    | none => exact absurd ((median_esg_none_iff cs).mp hm) h
    | some m => exact ⟨m, rfl⟩
  obtain ⟨m, hm⟩ := hmex
  refine ⟨m, (validESG cs).insertionSort (· ≤ ·), _, hm,
    List.sorted_insertionSort _ _, List.perm_insertionSort _ _, ?_, ?_,
    (by rw [impute_missing, hm, Option.map_some'] : impute_missing cs = some _),
    List.length_map _ _, ?_⟩
  · intro hpar
    unfold median_esg at hm
    rw [if_pos hpar] at hm
    exact hm
  · intro hpar
    unfold median_esg at hm
    rw [if_neg (by omega)] at hm
    rcases he1 : ((validESG cs).insertionSort (· ≤ ·))[((validESG cs).insertionSort
        (· ≤ ·)).length / 2 - 1]? with _ | a <;>
      rcases he2 : ((validESG cs).insertionSort (· ≤ ·))[((validESG cs).insertionSort
        (· ≤ ·)).length / 2]? with _ | b <;>
      rw [he1, he2] at hm <;> simp only [] at hm
    · exact Option.noConfusion hm
    · exact Option.noConfusion hm
    · exact Option.noConfusion hm
    · exact ⟨a, b, rfl, rfl, (Option.some.inj hm).symm⟩
  · intro i c hc
    rw [List.getElem?_map, hc]
    constructor
    · intro hesg
      simp only [Option.map_some']
      rw [hesg]
    · intro v hesg
      simp only [Option.map_some']
      rw [hesg]

/-- Witness for C6 at a concrete input: valid sample `[10, 20, 30]`. -/
theorem impute_missing_median_spec_witness :
    validESG csImp ≠ [] ∧
    (∃ (m : ℚ) (s : List ℚ) (l : List Company),
      median_esg csImp = some m ∧
      List.Sorted (· ≤ ·) s ∧ s.Perm (validESG csImp) ∧
      (s.length % 2 = 1 → s[s.length / 2]? = some m) ∧
      (s.length % 2 = 0 → ∃ a b : ℚ, s[s.length / 2 - 1]? = some a ∧
        s[s.length / 2]? = some b ∧ m = (a + b) / 2) ∧
      impute_missing csImp = some l ∧ l.length = csImp.length ∧
      ∀ (i : ℕ) (c : Company), csImp[i]? = some c →
        (c.esg_score = none →
          l[i]? = some { c with
            esg_score := some (roundTo 1 (m * (if c.is_corrupted then 9 / 10 else 1))),
            esg_imputed := true }) ∧
        (∀ v : ℚ, c.esg_score = some v →
          l[i]? = some { c with esg_imputed := false })) :=
  ⟨fun hcon => List.noConfusion (show ([10, 20, 30] : List ℚ) = [] from hcon),
    impute_missing_median_spec csImp
      (fun hcon => List.noConfusion (show ([10, 20, 30] : List ℚ) = [] from hcon))⟩

/-- C10: with exactly one company the ranking has a single entry, so
`top_gap = 0 < 0.05`: the gap decrement always fires, confidence is at most
`0.65`, and the close-gap uncertainty factor is always reported. -/
theorem single_company_gap (final : List (String × ℚ)) (h : final.length = 1)
    (corr imp : Bool) :
    topGap (rankingOf final) = 0 ∧
    confidenceOf (topGap (rankingOf final)) corr imp ≤ 65 / 100 ∧
    UFactor.gapClose ∈ uncertaintyFactors (topGap (rankingOf final)) corr imp := by
  obtain ⟨a, rfl⟩ := List.length_eq_one.mp h
  have hr : rankingOf [a] = [a] := rfl
  have hg : topGap [a] = 0 := rfl
  rw [hr, hg]
  refine ⟨rfl, ?_, ?_⟩
  · cases corr <;> cases imp <;> norm_num [confidenceOf, roundTo, rhe]
  · have h0 : (0 : ℚ) < 5 / 100 := by norm_num
    simp [uncertaintyFactors, h0]

/-- Witness for C10 at a concrete single-company input. -/
theorem single_company_gap_witness :
    ([(("A" : String), (1 : ℚ) / 2)].length = 1) ∧
    (topGap (rankingOf [(("A" : String), (1 : ℚ) / 2)]) = 0 ∧
      confidenceOf (topGap (rankingOf [(("A" : String), (1 : ℚ) / 2)])) false false ≤
        65 / 100 ∧
      UFactor.gapClose ∈
        uncertaintyFactors (topGap (rankingOf [(("A" : String), (1 : ℚ) / 2)]))
          false false) :=
  ⟨rfl, single_company_gap [("A", 1 / 2)] rfl false false⟩

theorem normalizeVal_mem (v a b : ℚ) (inv : Bool) :
    0 ≤ normalizeVal v a b inv ∧ normalizeVal v a b inv ≤ 1 := by
  simp only [normalizeVal]
  have h0 : (0 : ℚ) ≤ max 0 (min 1 ((v - a) / (b - a))) := le_max_left _ _
  have h1 : max 0 (min 1 ((v - a) / (b - a))) ≤ 1 :=
    max_le (by norm_num) (min_le_left _ _)
  split_ifs with h hinv
  · norm_num
  · constructor <;> linarith
  · constructor <;> linarith

theorem risk_map_mem (s : String) : 0 ≤ risk_map s ∧ risk_map s ≤ 1 := by
  unfold risk_map
  split_ifs <;> norm_num

theorem risk_base_mem (c : Company) (vols dtes : List ℚ) :
    0 ≤ risk_base c vols dtes ∧ risk_base c vols dtes ≤ 1 := by
  simp only [risk_base]
  obtain ⟨hv0, hv1⟩ := normalizeVal_mem (c.volatility.getD 0) (listMin vols) (listMax vols) true
  obtain ⟨hd0, hd1⟩ :=
    normalizeVal_mem (c.debt_to_equity.getD 0) (listMin dtes) (listMax dtes) true
  obtain ⟨ho0, ho1⟩ := risk_map_mem c.operational_risk
  constructor <;> linarith

theorem risk_penalty_nonneg (c : Company) (con : Constraints) :
    0 ≤ risk_penalty c con := by
  unfold risk_penalty
  split_ifs <;> norm_num

theorem lookupD_mem_of_bounds {signals : List (String × ℚ)} {lo hi : ℚ}
    (hsig : ∀ p ∈ signals, lo ≤ p.2 ∧ p.2 ≤ hi) (k : String) (d : ℚ)
    (hd : lo ≤ d ∧ d ≤ hi) :
    lo ≤ lookupD signals k d ∧ lookupD signals k d ≤ hi := by
  unfold lookupD
  cases hf : signals.find? fun p => p.1 == k with
  | none => exact hd
  | some q => exact hsig q (List.mem_of_find?_eq_some hf)

/-- C7: for companies with non-null numeric fields (and news signals in
`[-1,1]`, as the extractor guarantees), every financial score, every
pre-penalty risk score, every post-penalty risk score and every news score
lies in `[0, 1]`; the penalty only subtracts and the result is floored
at 0. -/
theorem scorer_ranges (cs : List Company) (con : Constraints)
    (signals : List (String × ℚ))
    (hnn : ∀ c ∈ cs, c.revenue_growth.isSome = true ∧ c.ebitda_margin.isSome = true ∧
      c.debt_to_equity.isSome = true ∧ c.volatility.isSome = true ∧
      c.esg_score.isSome = true)
    (hsig : ∀ p ∈ signals, -1 ≤ p.2 ∧ p.2 ≤ 1) :
    (∀ p ∈ scorer_financial cs, 0 ≤ p.2 ∧ p.2 ≤ 1) ∧
    (∀ c ∈ cs,
      0 ≤ risk_base c (cs.map fun x => x.volatility.getD 0)
          (cs.map fun x => x.debt_to_equity.getD 0) ∧
      risk_base c (cs.map fun x => x.volatility.getD 0)
          (cs.map fun x => x.debt_to_equity.getD 0) ≤ 1) ∧
    (∀ p ∈ scorer_risk cs con, 0 ≤ p.2 ∧ p.2 ≤ 1) ∧
    (∀ p ∈ scorer_news cs signals, 0 ≤ p.2 ∧ p.2 ≤ 1) := by
  refine ⟨?_, ?_, ?_, ?_⟩
  · intro p hp
    simp only [scorer_financial, List.mem_map] at hp
    obtain ⟨c, _, rfl⟩ := hp
    simp only [finValue]
    obtain ⟨hg0, hg1⟩ := normalizeVal_mem (c.revenue_growth.getD 0)
      (listMin (cs.map fun x => x.revenue_growth.getD 0))
      (listMax (cs.map fun x => x.revenue_growth.getD 0)) false
    obtain ⟨hm0, hm1⟩ := normalizeVal_mem (c.ebitda_margin.getD 0)
      (listMin (cs.map fun x => x.ebitda_margin.getD 0))
      (listMax (cs.map fun x => x.ebitda_margin.getD 0)) false
    exact roundTo_mem_Icc ⟨0, by norm_num⟩ ⟨10000, by norm_num⟩
      (by linarith) (by linarith)
  · intro c _
    exact risk_base_mem c _ _
  · intro p hp
    simp only [scorer_risk, List.mem_map] at hp
    obtain ⟨c, _, rfl⟩ := hp
    simp only [riskValue]
    obtain ⟨hb0, hb1⟩ := risk_base_mem c (cs.map fun x => x.volatility.getD 0)
      (cs.map fun x => x.debt_to_equity.getD 0)
    have hp0 := risk_penalty_nonneg c con
    refine roundTo_mem_Icc ⟨0, by norm_num⟩ ⟨10000, by norm_num⟩ (le_max_right _ _) ?_
    exact max_le (by linarith) (by norm_num)
  · intro p hp
    simp only [scorer_news, List.mem_map] at hp
    obtain ⟨c, _, rfl⟩ := hp
    simp only [newsValue]
    obtain ⟨hs0, hs1⟩ := lookupD_mem_of_bounds hsig c.name 0 (by norm_num)
    have hq0 : (0 : ℚ) ≤ (lookupD signals c.name 0 + 1) / 2 := by linarith
    have hq1 : (lookupD signals c.name 0 + 1) / 2 ≤ 1 := by linarith
    have hm0 : (0 : ℚ) ≤ (lookupD signals c.name 0 + 1) / 2 * (85 / 100) :=
      mul_nonneg hq0 (by norm_num)
    have hm1 : (lookupD signals c.name 0 + 1) / 2 * (85 / 100) ≤ 1 :=
      le_trans (mul_le_mul_of_nonneg_right hq1 (by norm_num)) (by norm_num)
    refine roundTo_mem_Icc ⟨0, by norm_num⟩ ⟨10000, by norm_num⟩ ?_ ?_
    · split_ifs with hc
      · exact hm0
      · exact hq0
    · split_ifs with hc
      · exact hm1
      · exact hq1

/-- Witness for C7 at a concrete input. -/
theorem scorer_ranges_witness :
    (∀ c ∈ csSc, c.revenue_growth.isSome = true ∧ c.ebitda_margin.isSome = true ∧
      c.debt_to_equity.isSome = true ∧ c.volatility.isSome = true ∧
      c.esg_score.isSome = true) ∧
    (∀ p ∈ sigSc, -1 ≤ p.2 ∧ p.2 ≤ 1) ∧
    ((∀ p ∈ scorer_financial csSc, 0 ≤ p.2 ∧ p.2 ≤ 1) ∧
      (∀ c ∈ csSc,
        0 ≤ risk_base c (csSc.map fun x => x.volatility.getD 0)
            (csSc.map fun x => x.debt_to_equity.getD 0) ∧
        risk_base c (csSc.map fun x => x.volatility.getD 0)
            (csSc.map fun x => x.debt_to_equity.getD 0) ≤ 1) ∧
      (∀ p ∈ scorer_risk csSc conSc, 0 ≤ p.2 ∧ p.2 ≤ 1) ∧
      (∀ p ∈ scorer_news csSc sigSc, 0 ≤ p.2 ∧ p.2 ≤ 1)) :=
  ⟨by decide, by norm_num [sigSc],
    scorer_ranges csSc conSc sigSc (by decide) (by norm_num [sigSc])⟩

theorem lookupD_map_getElem (g : Company → ℚ) (cs : List Company)
    (hnd : (cs.map Company.name).Nodup) (i : ℕ) (c : Company)
    (hc : cs[i]? = some c) (d : ℚ) :
    lookupD (cs.map fun x => (x.name, g x)) c.name d = g c := by
  induction cs generalizing i with
  | nil => simp at hc
  | cons hd tl ih =>
    rw [List.map_cons, List.nodup_cons] at hnd
    cases i with
    | zero =>
      rw [List.getElem?_cons_zero] at hc
      injection hc with hc
      subst hc
      unfold lookupD
      simp [List.find?_cons]
    | succ n =>
      rw [List.getElem?_cons_succ] at hc
      have hcm : c ∈ tl := List.getElem?_mem hc
      have hne : (hd.name == c.name) = false := by
        rw [beq_eq_false_iff_ne]
        intro he
        exact hnd.1 (he ▸ List.mem_map_of_mem Company.name hcm)
      have htl := ih hnd.2 n hc
      unfold lookupD at htl ⊢
      rw [List.map_cons, List.find?_cons]
      simpa [hne] using htl

theorem insertionSort_filter_stable (q : ℚ) (l : List (String × ℚ)) :
    (l.insertionSort rankDesc).filter (fun p => decide (p.2 = q)) =
      l.filter (fun p => decide (p.2 = q)) := by
  induction l with
  | nil => rfl
  | cons a t ih =>
    rw [List.insertionSort, List.orderedInsert_eq_take_drop, List.filter_append]
    have hsplit : (List.insertionSort rankDesc t).filter (fun p => decide (p.2 = q)) =
        ((List.insertionSort rankDesc t).takeWhile
            fun b => decide ¬rankDesc a b).filter (fun p => decide (p.2 = q)) ++
          ((List.insertionSort rankDesc t).dropWhile
            fun b => decide ¬rankDesc a b).filter (fun p => decide (p.2 = q)) := by
      rw [← List.filter_append, List.takeWhile_append_dropWhile]
    by_cases ha : a.2 = q
    · have htw : ((List.insertionSort rankDesc t).takeWhile
          fun b => decide ¬rankDesc a b).filter (fun p => decide (p.2 = q)) = [] := by
        rw [List.filter_eq_nil_iff]
        intro b hb
        have hbt := List.mem_takeWhile_imp hb
        simp only [decide_eq_true_eq] at hbt
        simp only [decide_eq_true_eq]
        intro hbq
        exact hbt (le_of_eq (by rw [hbq, ha] : b.2 = a.2) : rankDesc a b)
      have hdw : ((List.insertionSort rankDesc t).dropWhile
          fun b => decide ¬rankDesc a b).filter (fun p => decide (p.2 = q)) =
          t.filter (fun p => decide (p.2 = q)) := by
        rw [← ih, hsplit, htw, List.nil_append]
      have hdt : (decide (a.2 = q)) = true := decide_eq_true ha
      rw [htw, List.nil_append, List.filter_cons, List.filter_cons, if_pos hdt,
        if_pos hdt, hdw]
    · have hdf : ¬(decide (a.2 = q)) = true := by
        simp [decide_eq_false ha]
      rw [List.filter_cons, List.filter_cons, if_neg hdf, if_neg hdf, ← hsplit, ih]

/-- C4: for companies with non-null numeric fields and distinct names, the
final score of each company is
`round(0.30*financial + 0.45*risk + 0.25*news, 4)` over its own three
component scores; the ranking is sorted by final score descending, is a
permutation of the final scores in load order, and is stable: entries with
any given final score appear in their original load order. -/
theorem final_ranking_spec (cs : List Company) (con : Constraints)
    (signals : List (String × ℚ))
    (hnn : ∀ c ∈ cs, c.revenue_growth.isSome = true ∧ c.ebitda_margin.isSome = true ∧
      c.debt_to_equity.isSome = true ∧ c.volatility.isSome = true ∧
      c.esg_score.isSome = true)
    (hnd : (cs.map Company.name).Nodup) :
    (∀ (i : ℕ) (c : Company), cs[i]? = some c →
      ∃ f r nw : ℚ,
        (scorer_financial cs)[i]? = some (c.name, f) ∧
        (scorer_risk cs con)[i]? = some (c.name, r) ∧
        (scorer_news cs signals)[i]? = some (c.name, nw) ∧
        (finalScores (scorer_financial cs) (scorer_risk cs con)
            (scorer_news cs signals))[i]? =
          some (c.name, roundTo 4 (3 / 10 * f + 45 / 100 * r + 25 / 100 * nw))) ∧
    List.Sorted rankDesc (rankingOf (finalScores (scorer_financial cs)
      (scorer_risk cs con) (scorer_news cs signals))) ∧
    (rankingOf (finalScores (scorer_financial cs) (scorer_risk cs con)
      (scorer_news cs signals))).Perm
      (finalScores (scorer_financial cs) (scorer_risk cs con) (scorer_news cs signals)) ∧
    ∀ q : ℚ,
      (rankingOf (finalScores (scorer_financial cs) (scorer_risk cs con)
        (scorer_news cs signals))).filter (fun p => decide (p.2 = q)) =
      (finalScores (scorer_financial cs) (scorer_risk cs con)
        (scorer_news cs signals)).filter (fun p => decide (p.2 = q)) := by
  refine ⟨?_, List.sorted_insertionSort _ _, List.perm_insertionSort _ _,
    fun q => insertionSort_filter_stable q _⟩
  intro i c hc
  refine ⟨finValue cs c, riskValue cs con c, newsValue signals c, ?_, ?_, ?_, ?_⟩
  · simp only [scorer_financial, List.getElem?_map, hc, Option.map_some']
  · simp only [scorer_risk, List.getElem?_map, hc, Option.map_some']
  · simp only [scorer_news, List.getElem?_map, hc, Option.map_some']
  · have hr := lookupD_map_getElem (riskValue cs con) cs hnd i c hc 0
    have hw := lookupD_map_getElem (newsValue signals) cs hnd i c hc 0
    simp only [finalScores, scorer_financial, scorer_risk, scorer_news,
      List.getElem?_map, hc, Option.map_some']
    rw [hr, hw]

/-- Witness for C4 at a concrete two-company input. -/
theorem final_ranking_spec_witness :
    (∀ c ∈ csSc, c.revenue_growth.isSome = true ∧ c.ebitda_margin.isSome = true ∧
      c.debt_to_equity.isSome = true ∧ c.volatility.isSome = true ∧
      c.esg_score.isSome = true) ∧
    ((csSc.map Company.name).Nodup) ∧
    ((∀ (i : ℕ) (c : Company), csSc[i]? = some c →
      ∃ f r nw : ℚ,
        (scorer_financial csSc)[i]? = some (c.name, f) ∧
        (scorer_risk csSc conSc)[i]? = some (c.name, r) ∧
        (scorer_news csSc sigSc)[i]? = some (c.name, nw) ∧
        (finalScores (scorer_financial csSc) (scorer_risk csSc conSc)
            (scorer_news csSc sigSc))[i]? =
          some (c.name, roundTo 4 (3 / 10 * f + 45 / 100 * r + 25 / 100 * nw))) ∧
    List.Sorted rankDesc (rankingOf (finalScores (scorer_financial csSc)
      (scorer_risk csSc conSc) (scorer_news csSc sigSc))) ∧
    (rankingOf (finalScores (scorer_financial csSc) (scorer_risk csSc conSc)
      (scorer_news csSc sigSc))).Perm
      (finalScores (scorer_financial csSc) (scorer_risk csSc conSc)
        (scorer_news csSc sigSc)) ∧
    ∀ q : ℚ,
      (rankingOf (finalScores (scorer_financial csSc) (scorer_risk csSc conSc)
        (scorer_news csSc sigSc))).filter (fun p => decide (p.2 = q)) =
      (finalScores (scorer_financial csSc) (scorer_risk csSc conSc)
        (scorer_news csSc sigSc)).filter (fun p => decide (p.2 = q))) :=
  ⟨by decide, by decide,
    final_ranking_spec csSc conSc sigSc (by decide) (by decide)⟩
